import Mathlib

/-!
Verification development for the `doc_compiler` web crawler
(`src/doc_compiler/crawler.py`).

Strings are modelled as `List Char`.  The parts of `urllib.parse` that
`crawler.py` uses (`urlparse`, `urlunparse` via `geturl`, `urldefrag`,
`urljoin`) are embedded at the `urlsplit` level: components
`(scheme, netloc, path, query, fragment)`.  The `params` component
(split from the path at `;`) and the WHATWG control-character
sanitisation of modern CPython are not modelled; no input considered
here contains `;` or control characters.  Character case folding is
modelled for ASCII only (`str.lower` restricted to `A`-`Z`), which is
the alphabet of every URL exercised by the crawler's scope logic.

Network, HTML parsing and the headless browser are modelled as
explicit environments (`FetchEnv`, `DriverEnv`, `CrawlEnv`): the
traversal and filtering logic proved about is exactly the code of
`crawler.py`, with the I/O collaborators as parameters.  A per-URL
exception propagating out of `get_page_content` is modelled as the
`.error` case of `Except`.
-/

abbrev Str := List Char

/-- ASCII lower-casing of a single character, modelling `str.lower`
restricted to ASCII (the only case folding exercised by the crawler). -/
def lowerChar (c : Char) : Char :=
  match c with
  | 'A' => 'a' | 'B' => 'b' | 'C' => 'c' | 'D' => 'd' | 'E' => 'e'
  | 'F' => 'f' | 'G' => 'g' | 'H' => 'h' | 'I' => 'i' | 'J' => 'j'
  | 'K' => 'k' | 'L' => 'l' | 'M' => 'm' | 'N' => 'n' | 'O' => 'o'
  | 'P' => 'p' | 'Q' => 'q' | 'R' => 'r' | 'S' => 's' | 'T' => 't'
  | 'U' => 'u' | 'V' => 'v' | 'W' => 'w' | 'X' => 'x' | 'Y' => 'y'
  | 'Z' => 'z'
  | c => c

def upLetters : List Char :=
  ['A','B','C','D','E','F','G','H','I','J','K','L','M',
   'N','O','P','Q','R','S','T','U','V','W','X','Y','Z']

def lowLetters : List Char :=
  ['a','b','c','d','e','f','g','h','i','j','k','l','m',
   'n','o','p','q','r','s','t','u','v','w','x','y','z']

theorem lowerChar_eq_self_of_not_up {c : Char} (h : c ∉ upLetters) :
    lowerChar c = c := by
  unfold lowerChar
  split <;> simp_all [upLetters]

theorem lowerChar_up_mem_low : ∀ c ∈ upLetters, lowerChar c ∈ lowLetters := by
  decide

theorem lowerChar_fix_of_low : ∀ c ∈ lowLetters, lowerChar c = c := by
  decide

theorem low_not_up : ∀ c ∈ lowLetters, c ∉ upLetters := by
  decide

theorem lowerChar_cases (c : Char) :
    lowerChar c = c ∨ (c ∈ upLetters ∧ lowerChar c ∈ lowLetters) := by
  by_cases h : c ∈ upLetters
  · exact Or.inr ⟨h, lowerChar_up_mem_low c h⟩
  · exact Or.inl (lowerChar_eq_self_of_not_up h)

theorem lowerChar_idem (c : Char) : lowerChar (lowerChar c) = lowerChar c := by
  rcases lowerChar_cases c with h | ⟨_, h⟩
  · rw [h, h]
  · exact lowerChar_fix_of_low _ h

/-- If `t` is not a lowercase letter and not an uppercase letter, then
`lowerChar c = t` forces `c = t`. -/
theorem eq_of_lowerChar_eq {c t : Char} (hlo : t ∉ lowLetters)
    (h : lowerChar c = t) : c = t := by
  rcases lowerChar_cases c with h2 | ⟨_, h2⟩
  · rw [← h2, h]
  · exact absurd (h ▸ h2) hlo

/-- Splits a list at the first occurrence of `sep`; the separator is
dropped.  Returns `none` when `sep` does not occur (models `str.find`
plus slicing, and `str.split(sep, 1)`). -/
def splitOnFirst (sep : Char) : Str → Option (Str × Str)
  | [] => none
  | c :: cs =>
    if c = sep then some ([], cs)
    else
      match splitOnFirst sep cs with
      | none => none
      | some (a, b) => some (c :: a, b)

theorem splitOnFirst_eq_some {sep : Char} {s a b : Str}
    (h : splitOnFirst sep s = some (a, b)) :
    s = a ++ sep :: b ∧ sep ∉ a := by
  induction s generalizing a b with
  | nil => simp [splitOnFirst] at h
  | cons c cs ih =>
    by_cases hc : c = sep
    · have hv : splitOnFirst sep (c :: cs) = some ([], cs) := by
        simp [splitOnFirst, hc]
      rw [hv] at h
      injection h with h3
      cases h3
      rw [hc]
      simp
    · simp only [splitOnFirst, if_neg hc] at h
      cases h2 : splitOnFirst sep cs with
      | none => rw [h2] at h; cases h
      | some p =>
        obtain ⟨a2, b2⟩ := p
        rw [h2] at h
        simp only [Option.some.injEq, Prod.mk.injEq] at h
        obtain ⟨ha, hb⟩ := h
        subst hb
        subst ha
        obtain ⟨hs, hmem⟩ := ih h2
        constructor
        · rw [hs]
          simp
        · simp only [List.mem_cons, not_or]
          exact ⟨fun hh => hc hh.symm, hmem⟩

theorem splitOnFirst_append {sep : Char} {a : Str} (b : Str) (h : sep ∉ a) :
    splitOnFirst sep (a ++ sep :: b) = some (a, b) := by
  induction a with
  | nil => simp [splitOnFirst]
  | cons c cs ih =>
    rw [List.mem_cons, not_or] at h
    have ih2 := ih h.2
    simp only [List.cons_append, splitOnFirst,
      if_neg (show ¬ c = sep from fun hc => h.1 hc.symm), List.append_eq, ih2]

theorem splitOnFirst_eq_none {sep : Char} {s : Str} :
    splitOnFirst sep s = none ↔ sep ∉ s := by
  induction s with
  | nil => simp [splitOnFirst]
  | cons c cs ih =>
    by_cases hc : c = sep
    · subst hc
      simp [splitOnFirst]
    · simp only [splitOnFirst, if_neg hc, List.mem_cons]
      cases h2 : splitOnFirst sep cs with
      | none =>
        rw [h2] at ih
        simp only [true_iff] at ih
        have hsc : ¬ sep = c := fun hh => hc hh.symm
        simp [ih, hsc]
      | some p =>
        obtain ⟨a, b⟩ := p
        obtain ⟨hs, _⟩ := splitOnFirst_eq_some h2
        have hmem : sep ∈ cs := by
          rw [hs]
          simp
        simp [hmem]

/-- Longest prefix of `s` with no character from `stops`, plus the
remainder (which, if nonempty, starts with a stop character).  Models
`urllib.parse._splitnetloc`. -/
def spanNotMem (stops : List Char) : Str → Str × Str
  | [] => ([], [])
  | c :: cs =>
    if c ∈ stops then ([], c :: cs)
    else
      let p := spanNotMem stops cs
      (c :: p.1, p.2)

theorem spanNotMem_append {stops : List Char} {a : Str} (b : Str)
    (ha : ∀ c ∈ a, c ∉ stops)
    (hb : b = [] ∨ ∃ c cs, b = c :: cs ∧ c ∈ stops) :
    spanNotMem stops (a ++ b) = (a, b) := by
  induction a with
  | nil =>
    rcases hb with hb | ⟨c, cs, hb, hc⟩
    · subst hb; simp [spanNotMem]
    · subst hb; simp [spanNotMem, hc]
  | cons x xs ih =>
    have hx : x ∉ stops := ha x (List.mem_cons_self x xs)
    have ih2 := ih (fun c hc => ha c (List.mem_cons_of_mem x hc))
    simp only [List.cons_append, spanNotMem, if_neg hx, List.append_eq, ih2]

theorem spanNotMem_spec (stops : List Char) (s : Str) :
    s = (spanNotMem stops s).1 ++ (spanNotMem stops s).2 ∧
    (∀ c ∈ (spanNotMem stops s).1, c ∉ stops) ∧
    ((spanNotMem stops s).2 = [] ∨
      ∃ c cs, (spanNotMem stops s).2 = c :: cs ∧ c ∈ stops) := by
  induction s with
  | nil => simp [spanNotMem]
  | cons c cs ih =>
    by_cases hc : c ∈ stops
    · refine ⟨?_, ?_, ?_⟩ <;> simp [spanNotMem, hc]
    · obtain ⟨ih1, ih2, ih3⟩ := ih
      refine ⟨?_, ?_, ?_⟩
      · simp only [spanNotMem, if_neg hc, List.cons_append]
        exact congrArg (c :: ·) ih1
      · simp only [spanNotMem, if_neg hc]
        intro d hd
        rcases List.mem_cons.mp hd with rfl | hd
        · exact hc
        · exact ih2 d hd
      · simpa only [spanNotMem, if_neg hc] using ih3

/-- `str.rstrip("/")`: removes all trailing `'/'` characters. -/
def rstripSlash : Str → Str
  | [] => []
  | c :: cs =>
    match rstripSlash cs with
    | [] => if c = '/' then [] else [c]
    | r => c :: r

theorem rstripSlash_mem {c : Char} {s : Str} (h : c ∈ rstripSlash s) : c ∈ s := by
  induction s with
  | nil => simp [rstripSlash] at h
  | cons x xs ih =>
    simp only [rstripSlash] at h
    cases h2 : rstripSlash xs with
    | nil =>
      rw [h2] at h
      by_cases hx : x = '/'
      · rw [if_pos hx] at h
        cases h
      · rw [if_neg hx] at h
        simp at h
        simp [h]
    | cons r rs =>
      rw [h2] at h
      simp only [List.mem_cons] at h
      rcases h with h | h
      · simp [h]
      · refine List.mem_cons_of_mem x (ih ?_)
        rw [h2]
        exact List.mem_cons.mpr h

theorem rstripSlash_idem (s : Str) : rstripSlash (rstripSlash s) = rstripSlash s := by
  induction s with
  | nil => simp [rstripSlash]
  | cons x xs ih =>
    cases h2 : rstripSlash xs with
    | nil =>
      have hstep : rstripSlash (x :: xs) = if x = '/' then [] else [x] := by
        simp only [rstripSlash, h2]
      rw [hstep]
      by_cases hx : x = '/'
      · simp [hx, rstripSlash]
      · simp [hx, rstripSlash]
    | cons r rs =>
      have hstep : rstripSlash (x :: xs) = x :: r :: rs := by
        simp only [rstripSlash, h2]
      rw [h2] at ih
      rw [hstep, rstripSlash.eq_2, ih]

theorem rstripSlash_headq (s : Str) :
    rstripSlash s = [] ∨ (rstripSlash s).head? = s.head? := by
  induction s with
  | nil =>
    left
    simp [rstripSlash]
  | cons x xs _ =>
    simp only [rstripSlash]
    cases h2 : rstripSlash xs with
    | nil =>
      by_cases hx : x = '/'
      · left
        simp [hx]
      · right
        simp [hx]
    | cons r rs =>
      right
      simp

/-- `urllib.parse.scheme_chars`: ASCII letters, digits, `+`, `-`, `.`. -/
def schemeChar (c : Char) : Bool :=
  c.isAlpha || c.isDigit || c = '+' || c = '-' || c = '.'

/-- The validity test `urlsplit` applies to the text before the first
`:`: nonempty, first character an ASCII letter, all characters in
`scheme_chars`. -/
def validScheme : Str → Bool
  | [] => false
  | c :: cs => c.isAlpha && (c :: cs).all schemeChar

/-- Result of `urllib.parse.urlsplit` (the `params` component of
`urlparse` is not modelled; see the module docstring). -/
structure UrlParts where
  scheme : Str
  netloc : Str
  path : Str
  query : Str
  fragment : Str
deriving DecidableEq, Repr

/-- The characters at which `_splitnetloc` stops. -/
def netlocStops : List Char := ['/', '?', '#']

/-- Scheme detection of `urlsplit`: look at the text before the first
`:`; if it is a valid scheme, lower-case it and continue after the
colon, otherwise keep the default scheme and the whole input. -/
def schemeSplit (dflt : Str) (s : Str) : Str × Str :=
  match splitOnFirst ':' s with
  | none => (dflt, s)
  | some (pre, post) =>
    if validScheme pre then (pre.map lowerChar, post) else (dflt, s)

/-- Netloc detection of `urlsplit`: when the input starts with `//`,
the netloc runs until the first of `/?#` (`_splitnetloc`). -/
def netSplit (s : Str) : Str × Str :=
  if s.take 2 = ['/', '/'] then spanNotMem netlocStops (s.drop 2)
  else ([], s)

/-- `url.split(sep, 1)` when `sep` occurs, else `(url, "")`. -/
def cutAt (sep : Char) (s : Str) : Str × Str :=
  match splitOnFirst sep s with
  | none => (s, [])
  | some (a, b) => (a, b)

/-- `urllib.parse.urlsplit(url, scheme=dflt)`: scheme detection at the
first `:`, netloc after a leading `//`, fragment after the first `#`,
query after the first `?` of what remains. -/
def urlsplitD (dflt : Str) (url : Str) : UrlParts :=
  let sp := schemeSplit dflt url
  let nl := netSplit sp.2
  let fr := cutAt '#' nl.2
  let pq := cutAt '?' fr.1
  ⟨sp.1, nl.1, pq.1, pq.2, fr.2⟩

/-- `urllib.parse.urlsplit` with the default empty scheme, as called by
`urlparse` inside `crawler.py`. -/
def urlsplit (url : Str) : UrlParts := urlsplitD [] url

/-- `urllib.parse.urlunsplit`, which `geturl()` calls (via
`urlunparse`; the `params` join is a no-op here). -/
def urlunsplit (P : UrlParts) : Str :=
  let u1 :=
    if P.netloc ≠ [] ∨ P.path.take 2 = ['/', '/'] then
      '/' :: '/' :: P.netloc ++
        (if P.path ≠ [] ∧ P.path.head? ≠ some '/' then '/' :: P.path else P.path)
    else P.path
  let u2 := if P.scheme ≠ [] then P.scheme ++ ':' :: u1 else u1
  let u3 := if P.query ≠ [] then u2 ++ '?' :: P.query else u2
  if P.fragment ≠ [] then u3 ++ '#' :: P.fragment else u3

/-- `urllib.parse.urldefrag(url)[0]`: when the URL holds a `#`, parse
and rebuild it without the fragment; otherwise return it unchanged. -/
def urldefrag (url : Str) : Str :=
  if '#' ∈ url then urlunsplit { urlsplit url with fragment := [] } else url

/-- The component rewrite done by `WebCrawler.normalize_url`:
`parsed._replace(path=parsed.path.lower().rstrip("/"), fragment="")`. -/
def normParts (P : UrlParts) : UrlParts :=
  { P with path := rstripSlash (P.path.map lowerChar), fragment := [] }

/-- `WebCrawler.normalize_url`: drop the fragment (`urldefrag`),
re-parse, lower-case and right-strip `/` from the path, rebuild
(`geturl`). -/
def normalize_url (url : Str) : Str :=
  urlunsplit (normParts (urlsplit (urldefrag url)))

example : urlsplit "https://x.com/A/b?q=1#frag".toList =
    ⟨"https".toList, "x.com".toList, "/A/b".toList, "q=1".toList, "frag".toList⟩ := by
  decide

example : normalize_url "https://x.com/a/".toList = "https://x.com/a".toList := by
  decide

example : normalize_url "https://x.com/a#frag".toList = "https://x.com/a".toList := by
  decide

example : normalize_url "https://X.com/A".toList = "https://X.com/a".toList := by
  decide

example : normalize_url "HTTPS://x.com".toList = "https://x.com".toList := by
  decide

example : normalize_url "https://x.com".toList = "https://x.com".toList := by
  decide

theorem up_isAlpha : ∀ c ∈ upLetters, c.isAlpha = true := by decide

theorem low_isAlpha : ∀ c ∈ lowLetters, c.isAlpha = true := by decide

theorem up_schemeChar : ∀ c ∈ upLetters, schemeChar c = true := by decide

theorem low_schemeChar : ∀ c ∈ lowLetters, schemeChar c = true := by decide

theorem lowerChar_isAlpha (c : Char) : (lowerChar c).isAlpha = c.isAlpha := by
  rcases lowerChar_cases c with h | ⟨h1, h2⟩
  · rw [h]
  · rw [low_isAlpha _ h2, up_isAlpha _ h1]

theorem lowerChar_schemeChar (c : Char) : schemeChar (lowerChar c) = schemeChar c := by
  rcases lowerChar_cases c with h | ⟨h1, h2⟩
  · rw [h]
  · rw [low_schemeChar _ h2, up_schemeChar _ h1]

theorem all_schemeChar_map (p : Str) :
    (p.map lowerChar).all schemeChar = p.all schemeChar := by
  induction p with
  | nil => rfl
  | cons c cs ih => simp [List.all_cons, lowerChar_schemeChar, ih]

theorem validScheme_map_lower (p : Str) :
    validScheme (p.map lowerChar) = validScheme p := by
  cases p with
  | nil => rfl
  | cons c cs =>
    simp only [List.map_cons, validScheme, lowerChar_isAlpha]
    have h := all_schemeChar_map (c :: cs)
    simp only [List.map_cons] at h
    rw [h]

theorem map_lowerChar_idem (p : Str) :
    (p.map lowerChar).map lowerChar = p.map lowerChar := by
  rw [List.map_map]
  exact List.map_congr_left (fun c _ => lowerChar_idem c)

/-- A list whose characters are all fixed by `f` maps to itself. -/
theorem map_fix {f : Char → Char} {p : Str} (h : ∀ c ∈ p, f c = c) :
    p.map f = p := by
  induction p with
  | nil => rfl
  | cons c cs ih =>
    rw [List.map_cons, h c (List.mem_cons_self c cs),
      ih (fun d hd => h d (List.mem_cons_of_mem c hd))]

theorem validScheme_false_of_bad {pre : Str} {c : Char} (hc : c ∈ pre)
    (hbad : schemeChar c = false) : validScheme pre = false := by
  cases pre with
  | nil => rfl
  | cons x xs =>
    simp only [validScheme, Bool.and_eq_false_iff]
    right
    rw [List.all_eq_false]
    exact ⟨c, hc, by rw [hbad]; exact Bool.false_ne_true⟩

theorem validScheme_false_head {c : Char} (cs : Str) (hc : c.isAlpha = false) :
    validScheme (c :: cs) = false := by
  simp [validScheme, hc]

/-- No prefix of `s` ending at its first `:` is a valid scheme: the
property making `urlsplit` leave the scheme empty. -/
def schemeSafe (s : Str) : Prop :=
  ∀ pre post, splitOnFirst ':' s = some (pre, post) → validScheme pre = false

theorem schemeSafe_nil : schemeSafe [] := by
  intro pre post h
  simp [splitOnFirst] at h

theorem schemeSafe_head {c : Char} (t : Str) (hc : c.isAlpha = false) :
    schemeSafe (c :: t) := by
  intro pre post h
  obtain ⟨hs, hmem⟩ := splitOnFirst_eq_some h
  cases pre with
  | nil => rfl
  | cons p ps =>
    have : c = p := by
      have := congrArg List.head? hs
      simpa using this
    rw [← this]
    exact validScheme_false_head _ hc

theorem cutAt_of_not_mem {sep : Char} {s : Str} (h : sep ∉ s) :
    cutAt sep s = (s, []) := by
  simp [cutAt, splitOnFirst_eq_none.mpr h]

theorem cutAt_of_append {sep : Char} {a : Str} (b : Str) (h : sep ∉ a) :
    cutAt sep (a ++ sep :: b) = (a, b) := by
  simp [cutAt, splitOnFirst_append b h]

theorem cutAt_not_mem_pre (sep : Char) (s : Str) : sep ∉ (cutAt sep s).1 := by
  unfold cutAt
  cases h : splitOnFirst sep s with
  | none => exact splitOnFirst_eq_none.mp h
  | some p =>
    obtain ⟨a, b⟩ := p
    exact (splitOnFirst_eq_some h).2

theorem cutAt_decomp (sep : Char) (s : Str) :
    (cutAt sep s).1 = s ∨ s = (cutAt sep s).1 ++ sep :: (cutAt sep s).2 := by
  unfold cutAt
  cases h : splitOnFirst sep s with
  | none => left; rfl
  | some p =>
    obtain ⟨a, b⟩ := p
    right
    exact (splitOnFirst_eq_some h).1

theorem cutAt_pre_ex (sep : Char) (s : Str) :
    ∃ t, s = (cutAt sep s).1 ++ t := by
  rcases cutAt_decomp sep s with h | h
  · exact ⟨[], by rw [h, List.append_nil]⟩
  · exact ⟨sep :: (cutAt sep s).2, h⟩

theorem cutAt_mem_pre {sep c : Char} {s : Str} (h : c ∈ (cutAt sep s).1) :
    c ∈ s := by
  obtain ⟨t, ht⟩ := cutAt_pre_ex sep s
  rw [ht]
  exact List.mem_append_left t h

theorem cutAt_mem_post {sep c : Char} {s : Str} (h : c ∈ (cutAt sep s).2) :
    c ∈ s := by
  unfold cutAt at h
  cases h3 : splitOnFirst sep s with
  | none =>
    rw [h3] at h
    cases h
  | some p =>
    obtain ⟨a, b⟩ := p
    rw [h3] at h
    rw [(splitOnFirst_eq_some h3).1]
    simp only [List.mem_append, List.mem_cons]
    right; right
    exact h

theorem cutAt_head (sep : Char) (s : Str) :
    (cutAt sep s).1 = [] ∨ ((cutAt sep s).1).head? = s.head? := by
  rcases cutAt_decomp sep s with h | h
  · right; rw [h]
  · cases h2 : (cutAt sep s).1 with
    | nil => left; rfl
    | cons c cs =>
      right
      rw [h, h2]
      simp

theorem netSplit_clean (s : Str) : ∀ c ∈ (netSplit s).1, c ∉ netlocStops := by
  unfold netSplit
  by_cases h : s.take 2 = ['/', '/']
  · rw [if_pos h]
    exact (spanNotMem_spec netlocStops (s.drop 2)).2.1
  · rw [if_neg h]
    intro c hc
    cases hc

theorem netSplit_rest (s : Str) :
    (netSplit s).2 = s ∨ (netSplit s).2 = [] ∨
      ∃ c t, (netSplit s).2 = c :: t ∧ c ∈ netlocStops := by
  unfold netSplit
  by_cases h : s.take 2 = ['/', '/']
  · rw [if_pos h]
    right
    exact (spanNotMem_spec netlocStops (s.drop 2)).2.2
  · rw [if_neg h]
    left
    rfl

theorem netSplit_nonempty_rest {s : Str} (h : (netSplit s).1 ≠ []) :
    (netSplit s).2 = [] ∨ ∃ c t, (netSplit s).2 = c :: t ∧ c ∈ netlocStops := by
  unfold netSplit at h ⊢
  by_cases h2 : s.take 2 = ['/', '/']
  · rw [if_pos h2] at h ⊢
    exact (spanNotMem_spec netlocStops (s.drop 2)).2.2
  · rw [if_neg h2] at h
    exact absurd rfl h

/-- `rstrip` only touches the tail after the last non-slash character:
splitting at a fixed non-slash character commutes with it. -/
theorem rstripSlash_append {c : Char} (a b : Str) (hc : c ≠ '/') :
    rstripSlash (a ++ c :: b) = a ++ c :: rstripSlash b := by
  induction a with
  | nil =>
    simp only [List.nil_append]
    cases h2 : rstripSlash b with
    | nil => simp only [rstripSlash, h2, if_neg hc]
    | cons r rs => simp only [rstripSlash, h2]
  | cons x xs ih =>
    simp only [List.cons_append]
    cases h2 : rstripSlash (xs ++ c :: b) with
    | nil =>
      rw [ih] at h2
      cases xs <;> simp at h2
    | cons r rs =>
      simp only [rstripSlash, h2]
      rw [← h2, ih]

theorem valid_not_mem {s : Str} (h : validScheme s = true) {c : Char}
    (hbad : schemeChar c = false) : c ∉ s := by
  intro hm
  rw [validScheme_false_of_bad hm hbad] at h
  cases h

/-- The query suffix `urlunsplit` appends. -/
def qPart (P : UrlParts) : Str := if P.query ≠ [] then '?' :: P.query else []

/-- The netloc/path portion `urlunsplit` builds. -/
def hier (P : UrlParts) : Str :=
  if P.netloc ≠ [] ∨ P.path.take 2 = ['/', '/'] then
    '/' :: '/' :: P.netloc ++
      (if P.path ≠ [] ∧ P.path.head? ≠ some '/' then '/' :: P.path else P.path)
  else P.path

/-- Everything after the scheme in the output of `urlunsplit` for a
fragment-free parse. -/
def tailPart (P : UrlParts) : Str := hier P ++ qPart P

theorem urlunsplit_frag_nil {P : UrlParts} (hf : P.fragment = []) :
    urlunsplit P =
      if P.scheme ≠ [] then P.scheme ++ ':' :: tailPart P else tailPart P := by
  unfold urlunsplit tailPart hier qPart
  rw [hf]
  simp only [ne_eq, not_true_eq_false, if_false]
  by_cases hs : P.scheme = []
  · by_cases hq : P.query = []
    · simp [hs, hq]
    · simp [hs, hq]
  · by_cases hq : P.query = []
    · simp [hs, hq]
    · simp [hs, hq, List.append_assoc]

/-- Canonical parses: the exact image of `normParts ∘ urlsplit`.  On
these, `urlsplit` inverts `urlunsplit`. -/
structure Canon (P : UrlParts) : Prop where
  scheme_ok : P.scheme = [] ∨
    (validScheme P.scheme = true ∧ P.scheme.map lowerChar = P.scheme)
  netloc_clean : ∀ c ∈ P.netloc, c ∉ netlocStops
  path_hash : '#' ∉ P.path
  path_quest : '?' ∉ P.path
  query_hash : '#' ∉ P.query
  frag_nil : P.fragment = []
  path_slash : P.netloc ≠ [] → P.path = [] ∨ P.path.head? = some '/'
  path_safe : P.scheme = [] → P.netloc = [] → schemeSafe P.path
  path_fix : rstripSlash (P.path.map lowerChar) = P.path

theorem schemeSafe_append_qm (p q : Str) (hp : schemeSafe p) :
    schemeSafe (p ++ '?' :: q) := by
  intro pre post h
  cases h2 : splitOnFirst ':' p with
  | some pr =>
    obtain ⟨a, b⟩ := pr
    obtain ⟨hsp, hna⟩ := splitOnFirst_eq_some h2
    have hw : p ++ '?' :: q = a ++ ':' :: (b ++ '?' :: q) := by
      rw [hsp]
      simp
    rw [hw, splitOnFirst_append _ hna] at h
    injection h with h3
    have h4 : pre = a := (congrArg Prod.fst h3).symm
    rw [h4]
    exact hp a b h2
  | none =>
    have hnp : ':' ∉ p := splitOnFirst_eq_none.mp h2
    cases h3 : splitOnFirst ':' q with
    | none =>
      have hnq : ':' ∉ q := splitOnFirst_eq_none.mp h3
      have : (':' : Char) ∉ p ++ '?' :: q := by
        simp only [List.mem_append, List.mem_cons]
        rintro (hh | hh | hh)
        · exact hnp hh
        · cases hh
        · exact hnq hh
      rw [splitOnFirst_eq_none.mpr this] at h
      cases h
    | some qr =>
      obtain ⟨qa, qb⟩ := qr
      obtain ⟨hsq, hnqa⟩ := splitOnFirst_eq_some h3
      have hw : p ++ '?' :: q = (p ++ '?' :: qa) ++ ':' :: qb := by
        rw [hsq]
        simp
      have hnn : ':' ∉ p ++ '?' :: qa := by
        simp only [List.mem_append, List.mem_cons]
        rintro (hh | hh | hh)
        · exact hnp hh
        · cases hh
        · exact hnqa hh
      rw [hw, splitOnFirst_append _ hnn] at h
      injection h with h3b
      have h4 : pre = p ++ '?' :: qa := by
        have := congrArg Prod.fst h3b
        simpa using this.symm
      rw [h4]
      exact validScheme_false_of_bad (by simp : ('?' : Char) ∈ p ++ '?' :: qa)
        (by decide)

theorem take2_eq_slashes {s : Str} (h : s.take 2 = ['/', '/']) :
    ∃ t, s = '/' :: '/' :: t := by
  cases s with
  | nil => simp at h
  | cons c1 s1 =>
    cases s1 with
    | nil => simp at h
    | cons c2 s2 =>
      obtain ⟨h1, h2⟩ : c1 = '/' ∧ c2 = '/' := by simpa using h
      exact ⟨s2, by rw [h1, h2]⟩

theorem netSplit_slashes (X : Str) :
    netSplit ('/' :: '/' :: X) = spanNotMem netlocStops X := by
  unfold netSplit
  rw [if_pos (show ('/' :: '/' :: X).take 2 = ['/', '/'] from rfl)]
  rfl

theorem netSplit_not_slashes {s : Str} (h : s.take 2 ≠ ['/', '/']) :
    netSplit s = ([], s) := by
  unfold netSplit
  rw [if_neg h]

theorem cutAt_nil (sep : Char) : cutAt sep [] = ([], []) := rfl

theorem qPart_cases (P : UrlParts) :
    (qPart P = [] ∧ P.query = []) ∨ qPart P = '?' :: P.query := by
  unfold qPart
  by_cases hq : P.query = []
  · left
    rw [if_neg (fun hh => hh hq)]
    exact ⟨rfl, hq⟩
  · right
    rw [if_pos hq]

theorem schemeSafe_of_ext {p t : Str} (h : schemeSafe (p ++ t)) :
    schemeSafe p := by
  intro pre post hsp
  obtain ⟨hdec, hnpre⟩ := splitOnFirst_eq_some hsp
  have hw : p ++ t = pre ++ ':' :: (post ++ t) := by
    rw [hdec]
    simp
  exact h pre (post ++ t) (by rw [hw]; exact splitOnFirst_append _ hnpre)

theorem schemeSafe_tail {P : UrlParts} (h : Canon P) (hs : P.scheme = []) :
    schemeSafe (tailPart P) := by
  unfold tailPart hier
  by_cases hc : P.netloc ≠ [] ∨ P.path.take 2 = ['/', '/']
  · rw [if_pos hc, List.cons_append]
    exact schemeSafe_head _ (by decide)
  · rw [if_neg hc]
    push_neg at hc
    have hps := h.path_safe hs hc.1
    rcases qPart_cases P with ⟨hq, _⟩ | hq
    · rw [hq, List.append_nil]
      exact hps
    · rw [hq]
      exact schemeSafe_append_qm _ _ hps

theorem schemeSplit_nil {s : Str} (h : (schemeSplit [] s).1 = []) :
    (schemeSplit [] s).2 = s ∧ schemeSafe s := by
  cases h2 : splitOnFirst ':' s with
  | none =>
    have hred : schemeSplit [] s = ([], s) := by
      unfold schemeSplit
      rw [h2]
    rw [hred]
    refine ⟨rfl, ?_⟩
    intro pre post hcontra
    rw [h2] at hcontra
    cases hcontra
  | some pr =>
    obtain ⟨pre, post⟩ := pr
    by_cases hv : validScheme pre = true
    · exfalso
      have hred : schemeSplit [] s = (pre.map lowerChar, post) := by
        unfold schemeSplit
        simp only [h2]
        rw [if_pos hv]
      rw [hred] at h
      simp only [List.map_eq_nil_iff] at h
      rw [h] at hv
      cases hv
    · have hred : schemeSplit [] s = ([], s) := by
        unfold schemeSplit
        simp only [h2]
        rw [if_neg hv]
      rw [hred]
      refine ⟨rfl, ?_⟩
      intro pre2 post2 hs2
      rw [h2] at hs2
      injection hs2 with h3
      have h4 : pre2 = pre := (congrArg Prod.fst h3).symm
      rw [h4]
      cases hb : validScheme pre with
      | false => rfl
      | true => exact absurd hb hv

theorem schemeSplit_ok (s : Str) :
    (schemeSplit [] s).1 = [] ∨
      (validScheme (schemeSplit [] s).1 = true ∧
        ((schemeSplit [] s).1).map lowerChar = (schemeSplit [] s).1) := by
  cases h : splitOnFirst ':' s with
  | none =>
    left
    unfold schemeSplit
    rw [h]
  | some pr =>
    obtain ⟨pre, post⟩ := pr
    by_cases hv : validScheme pre = true
    · right
      have hred : schemeSplit [] s = (pre.map lowerChar, post) := by
        unfold schemeSplit
        simp only [h]
        rw [if_pos hv]
      rw [hred]
      exact ⟨by rw [validScheme_map_lower]; exact hv, map_lowerChar_idem pre⟩
    · left
      have hred : schemeSplit [] s = ([], s) := by
        unfold schemeSplit
        simp only [h]
        rw [if_neg hv]
      rw [hred]

theorem urlsplitD_eq (dflt s : Str) :
    urlsplitD dflt s =
      ⟨(schemeSplit dflt s).1,
       (netSplit (schemeSplit dflt s).2).1,
       (cutAt '?' (cutAt '#' (netSplit (schemeSplit dflt s).2).2).1).1,
       (cutAt '?' (cutAt '#' (netSplit (schemeSplit dflt s).2).2).1).2,
       (cutAt '#' (netSplit (schemeSplit dflt s).2).2).2⟩ := rfl

theorem schemeSplit_unsplit {P : UrlParts} (h : Canon P) :
    schemeSplit [] (urlunsplit P) = (P.scheme, tailPart P) := by
  rw [urlunsplit_frag_nil h.frag_nil]
  by_cases hs : P.scheme = []
  · rw [if_neg (fun hh => hh hs), hs]
    cases h2 : splitOnFirst ':' (tailPart P) with
    | none =>
      unfold schemeSplit
      rw [h2]
    | some pr =>
      obtain ⟨pre, post⟩ := pr
      have hv : validScheme pre = false := schemeSafe_tail h hs pre post h2
      unfold schemeSplit
      simp only [h2]
      rw [if_neg (by rw [hv]; exact Bool.false_ne_true)]
  · rw [if_pos hs]
    rcases h.scheme_ok with h3 | ⟨hval, hfix⟩
    · exact absurd h3 hs
    · unfold schemeSplit
      rw [splitOnFirst_append (tailPart P) (valid_not_mem hval (by decide))]
      simp only []
      rw [if_pos hval, hfix]

theorem netSplit_tail {P : UrlParts} (h : Canon P) :
    netSplit (tailPart P) = (P.netloc, P.path ++ qPart P) := by
  unfold tailPart hier
  by_cases hnn : P.netloc = []
  · by_cases hpp : P.path.take 2 = ['/', '/']
    · rw [if_pos (Or.inr hpp)]
      obtain ⟨p2, hp2⟩ := take2_eq_slashes hpp
      have hadj : (if P.path ≠ [] ∧ P.path.head? ≠ some '/' then '/' :: P.path
          else P.path) = P.path := by
        rw [if_neg]
        rw [hp2]
        simp
      rw [hadj, hnn]
      have hshape : ('/' :: '/' :: ([] : Str) ++ P.path) ++ qPart P =
          '/' :: '/' :: (P.path ++ qPart P) := by simp
      rw [hshape, netSplit_slashes]
      rw [hp2]
      simp only [List.cons_append]
      unfold spanNotMem
      rw [if_pos (by simp [netlocStops] : ('/' : Char) ∈ netlocStops)]
    · rw [if_neg (by simp [hnn, hpp])]
      rw [hnn]
      apply netSplit_not_slashes
      intro heq
      obtain ⟨t, ht⟩ := take2_eq_slashes heq
      rcases qPart_cases P with ⟨hq, _⟩ | hq
      · rw [hq, List.append_nil] at ht
        exact hpp (by rw [ht]; rfl)
      · cases hpath : P.path with
        | nil =>
          rw [hpath, List.nil_append, hq] at ht
          cases ht
        | cons c1 t1 =>
          cases t1 with
          | nil =>
            rw [hpath, hq] at ht
            simp at ht
          | cons c2 t2 =>
            rw [hpath] at ht
            simp only [List.cons_append] at ht
            obtain ⟨ha, hb⟩ : c1 = '/' ∧ c2 = '/' := by
              injection ht with ha hb
              injection hb with hb hc
              exact ⟨ha, hb⟩
            apply hpp
            rw [hpath, ha, hb]
            rfl
  · rw [if_pos (Or.inl hnn)]
    have hadj : (if P.path ≠ [] ∧ P.path.head? ≠ some '/' then '/' :: P.path
        else P.path) = P.path := by
      rcases h.path_slash hnn with h2 | h2
      · rw [if_neg]
        simp [h2]
      · rw [if_neg]
        simp [h2]
    rw [hadj]
    have hshape : ('/' :: '/' :: P.netloc ++ P.path) ++ qPart P =
        '/' :: '/' :: (P.netloc ++ (P.path ++ qPart P)) := by simp
    rw [hshape, netSplit_slashes]
    apply spanNotMem_append
    · exact h.netloc_clean
    · rcases h.path_slash hnn with h2 | h2
      · rw [h2, List.nil_append]
        rcases qPart_cases P with ⟨hq, _⟩ | hq
        · left
          exact hq
        · right
          exact ⟨'?', P.query, hq, by simp [netlocStops]⟩
      · right
        cases hpath : P.path with
        | nil => rw [hpath] at h2; cases h2
        | cons c1 t1 =>
          rw [hpath] at h2
          simp only [List.head?] at h2
          injection h2 with h3
          refine ⟨'/', t1 ++ qPart P, ?_, by simp [netlocStops]⟩
          rw [← h3]
          simp

theorem cut_hash_tail {P : UrlParts} (h : Canon P) :
    cutAt '#' (P.path ++ qPart P) = (P.path ++ qPart P, []) := by
  apply cutAt_of_not_mem
  simp only [List.mem_append]
  rintro (hh | hh)
  · exact h.path_hash hh
  · rcases qPart_cases P with ⟨hq, _⟩ | hq
    · rw [hq] at hh
      cases hh
    · rw [hq] at hh
      rcases List.mem_cons.mp hh with hh | hh
      · cases hh
      · exact h.query_hash hh

theorem cut_quest_tail {P : UrlParts} (h : Canon P) :
    cutAt '?' (P.path ++ qPart P) = (P.path, P.query) := by
  rcases qPart_cases P with ⟨hq, hq2⟩ | hq
  · rw [hq, List.append_nil, cutAt_of_not_mem h.path_quest, hq2]
  · rw [hq]
    exact cutAt_of_append P.query h.path_quest

/-- `urlsplit` inverts `urlunsplit` on canonical parses. -/
theorem urlsplit_unsplit {P : UrlParts} (h : Canon P) :
    urlsplit (urlunsplit P) = P := by
  have hA := schemeSplit_unsplit h
  have hB := netSplit_tail h
  have hC := cut_hash_tail h
  have hD := cut_quest_tail h
  unfold urlsplit
  rw [urlsplitD_eq, hA]
  simp only [hB, hC, hD]
  rw [← h.frag_nil]

/-- Output of `urlunsplit` on a canonical parse holds no `#`. -/
theorem urlunsplit_no_hash {P : UrlParts} (h : Canon P) :
    '#' ∉ urlunsplit P := by
  rw [urlunsplit_frag_nil h.frag_nil]
  intro hm
  have htl : ('#' : Char) ∉ tailPart P := by
    unfold tailPart
    simp only [List.mem_append]
    rintro (hh | hh)
    · unfold hier at hh
      by_cases hc : P.netloc ≠ [] ∨ P.path.take 2 = ['/', '/']
      · rw [if_pos hc] at hh
        rcases List.mem_cons.mp hh with hh | hh
        · cases hh
        · rcases List.mem_cons.mp hh with hh | hh
          · cases hh
          · rcases List.mem_append.mp hh with hh | hh
            · exact h.netloc_clean '#' hh (by simp [netlocStops])
            · by_cases hadj : P.path ≠ [] ∧ P.path.head? ≠ some '/'
              · rw [if_pos hadj] at hh
                rcases List.mem_cons.mp hh with hh | hh
                · cases hh
                · exact h.path_hash hh
              · rw [if_neg hadj] at hh
                exact h.path_hash hh
      · rw [if_neg hc] at hh
        exact h.path_hash hh
    · rcases qPart_cases P with ⟨hq, _⟩ | hq
      · rw [hq] at hh
        cases hh
      · rw [hq] at hh
        rcases List.mem_cons.mp hh with hh | hh
        · cases hh
        · exact h.query_hash hh
  by_cases hs : P.scheme = []
  · rw [if_neg (fun hh => hh hs)] at hm
    exact htl hm
  · rw [if_pos hs] at hm
    rcases h.scheme_ok with h3 | ⟨hval, _⟩
    · exact hs h3
    · rcases List.mem_append.mp hm with hh | hh
      · exact valid_not_mem hval (by decide) hh
      · rcases List.mem_cons.mp hh with hh | hh
        · cases hh
        · exact htl hh

theorem head?_mem {l : Str} {c : Char} (h : l.head? = some c) : c ∈ l := by
  cases l with
  | nil => cases h
  | cons x xs =>
    simp only [List.head?, Option.some.injEq] at h
    rw [← h]
    exact List.mem_cons_self x xs

theorem netSplit_nil_snd (s : Str) :
    (netSplit s).2 = s ∨
      ((netSplit s).2 = [] ∨ ∃ c t, (netSplit s).2 = c :: t ∧ c ∈ netlocStops) := by
  unfold netSplit
  by_cases h2 : s.take 2 = ['/', '/']
  · rw [if_pos h2]
    right
    exact (spanNotMem_spec netlocStops (s.drop 2)).2.2
  · rw [if_neg h2]
    left
    rfl

theorem cuts_pre_ex (X : Str) :
    ∃ t, X = (cutAt '?' (cutAt '#' X).1).1 ++ t := by
  obtain ⟨t1, h1⟩ := cutAt_pre_ex '#' X
  obtain ⟨t2, h2⟩ := cutAt_pre_ex '?' (cutAt '#' X).1
  refine ⟨t2 ++ t1, ?_⟩
  calc X = (cutAt '#' X).1 ++ t1 := h1
    _ = ((cutAt '?' (cutAt '#' X).1).1 ++ t2) ++ t1 := congrArg (· ++ t1) h2
    _ = (cutAt '?' (cutAt '#' X).1).1 ++ (t2 ++ t1) := List.append_assoc .. 

theorem cuts_head (X : Str) :
    (cutAt '?' (cutAt '#' X).1).1 = [] ∨
      ((cutAt '?' (cutAt '#' X).1).1).head? = X.head? := by
  rcases cutAt_head '#' X with h1 | h1
  · left
    rw [h1]
    rfl
  · rcases cutAt_head '?' (cutAt '#' X).1 with h2 | h2
    · left
      exact h2
    · right
      rw [h2, h1]

theorem urlsplit_path_quest (s : Str) : '?' ∉ (urlsplit s).path :=
  cutAt_not_mem_pre '?' _

theorem urlsplit_path_hash (s : Str) : '#' ∉ (urlsplit s).path :=
  fun hm => cutAt_not_mem_pre '#' _ (cutAt_mem_pre hm)

theorem urlsplit_query_hash (s : Str) : '#' ∉ (urlsplit s).query :=
  fun hm => cutAt_not_mem_pre '#' _ (cutAt_mem_post hm)

theorem urlsplit_netloc_clean (s : Str) :
    ∀ c ∈ (urlsplit s).netloc, c ∉ netlocStops :=
  netSplit_clean _

theorem urlsplit_scheme_ok (s : Str) :
    (urlsplit s).scheme = [] ∨
      (validScheme (urlsplit s).scheme = true ∧
        ((urlsplit s).scheme).map lowerChar = (urlsplit s).scheme) :=
  schemeSplit_ok s

theorem urlsplit_path_slash (s : Str) (h : (urlsplit s).netloc ≠ []) :
    (urlsplit s).path = [] ∨ ((urlsplit s).path).head? = some '/' := by
  rcases netSplit_nonempty_rest (s := (schemeSplit [] s).2) h with h2 | ⟨c, t, h2, hc⟩
  · left
    show (cutAt '?' (cutAt '#' (netSplit (schemeSplit [] s).2).2).1).1 = []
    rw [h2]
    rfl
  · rcases cuts_head (netSplit (schemeSplit [] s).2).2 with h3 | h3
    · left
      exact h3
    · have h4 : ((cutAt '?' (cutAt '#' (netSplit (schemeSplit [] s).2).2).1).1).head? =
          some c := by
        rw [h3, h2]
        rfl
      simp only [netlocStops, List.mem_cons, List.not_mem_nil, or_false] at hc
      rcases hc with rfl | rfl | rfl
      · right
        exact h4
      · exact absurd (head?_mem h4) (urlsplit_path_quest s)
      · exact absurd (head?_mem h4) (urlsplit_path_hash s)

theorem schemeSafe_path_of {X : Str}
    (hX : schemeSafe X ∨ X = [] ∨ ∃ c t, X = c :: t ∧ c ∈ netlocStops) :
    schemeSafe (cutAt '?' (cutAt '#' X).1).1 := by
  rcases hX with hX | hX | ⟨c, t, hX, hc⟩
  · obtain ⟨t, ht⟩ := cuts_pre_ex X
    rw [ht] at hX
    exact schemeSafe_of_ext hX
  · rw [hX]
    exact schemeSafe_nil
  · rcases cuts_head X with h3 | h3
    · rw [h3]
      exact schemeSafe_nil
    · have h4 : ((cutAt '?' (cutAt '#' X).1).1).head? = some c := by
        rw [h3, hX]
        rfl
      cases hp : (cutAt '?' (cutAt '#' X).1).1 with
      | nil => exact schemeSafe_nil
      | cons x xs =>
        rw [hp] at h4
        simp only [List.head?, Option.some.injEq] at h4
        rw [h4]
        apply schemeSafe_head
        simp only [netlocStops, List.mem_cons, List.not_mem_nil, or_false] at hc
        rcases hc with rfl | rfl | rfl <;> decide

theorem urlsplit_path_safe (s : Str) (hs : (urlsplit s).scheme = []) :
    schemeSafe (urlsplit s).path := by
  obtain ⟨h2s, hsafe⟩ := schemeSplit_nil (s := s) hs
  apply schemeSafe_path_of
  rcases netSplit_nil_snd (schemeSplit [] s).2 with h2 | h2
  · left
    rw [h2, h2s]
    exact hsafe
  · right
    exact h2

theorem normPath_not_mem {p : Str} {t : Char} (ht : t ∉ lowLetters)
    (h : t ∉ p) : t ∉ rstripSlash (p.map lowerChar) := by
  intro hm
  rcases List.mem_map.mp (rstripSlash_mem hm) with ⟨d, hd, hld⟩
  rw [eq_of_lowerChar_eq ht hld] at hd
  exact h hd

theorem normPath_fix (p : Str) :
    rstripSlash ((rstripSlash (p.map lowerChar)).map lowerChar) =
      rstripSlash (p.map lowerChar) := by
  have hfix : (rstripSlash (p.map lowerChar)).map lowerChar =
      rstripSlash (p.map lowerChar) := by
    apply map_fix
    intro c hc
    rcases List.mem_map.mp (rstripSlash_mem hc) with ⟨d, _, hld⟩
    rw [← hld]
    exact lowerChar_idem d
  rw [hfix]
  exact rstripSlash_idem _

theorem schemeSafe_norm {p : Str} (h : schemeSafe p) :
    schemeSafe (rstripSlash (p.map lowerChar)) := by
  intro pre post hsp
  obtain ⟨hdec, hnpre⟩ := splitOnFirst_eq_some hsp
  have hcolon : (':' : Char) ∈ rstripSlash (p.map lowerChar) := by
    rw [hdec]
    simp
  have hcolon3 : (':' : Char) ∈ p := by
    rcases List.mem_map.mp (rstripSlash_mem hcolon) with ⟨d, hd, hld⟩
    rw [eq_of_lowerChar_eq (by decide) hld] at hd
    exact hd
  cases hsp2 : splitOnFirst ':' p with
  | none => exact absurd hcolon3 (splitOnFirst_eq_none.mp hsp2)
  | some pr =>
    obtain ⟨a, b⟩ := pr
    obtain ⟨hpd, hna⟩ := splitOnFirst_eq_some hsp2
    have hpath : rstripSlash (p.map lowerChar) =
        a.map lowerChar ++ ':' :: rstripSlash (b.map lowerChar) := by
      rw [hpd]
      simp only [List.map_append, List.map_cons]
      rw [show lowerChar ':' = ':' from rfl]
      exact rstripSlash_append _ _ (by decide)
    have hna2 : (':' : Char) ∉ a.map lowerChar := by
      intro hm
      rcases List.mem_map.mp hm with ⟨d, hd, hld⟩
      rw [eq_of_lowerChar_eq (by decide) hld] at hd
      exact hna hd
    rw [hpath, splitOnFirst_append _ hna2] at hsp
    injection hsp with h3
    have h4 : pre = a.map lowerChar := (congrArg Prod.fst h3).symm
    rw [h4, validScheme_map_lower]
    exact h a b hsp2

/-- The parse-then-normalize pipeline of `normalize_url` always lands
in the canonical fragment. -/
theorem canon_norm (s : Str) : Canon (normParts (urlsplit s)) := by
  refine ⟨?_, ?_, ?_, ?_, ?_, rfl, ?_, ?_, ?_⟩
  · exact urlsplit_scheme_ok s
  · exact urlsplit_netloc_clean s
  · exact normPath_not_mem (by decide) (urlsplit_path_hash s)
  · exact normPath_not_mem (by decide) (urlsplit_path_quest s)
  · exact urlsplit_query_hash s
  · intro hn
    rcases urlsplit_path_slash s hn with h2 | h2
    · left
      show rstripSlash (((urlsplit s).path).map lowerChar) = []
      rw [h2]
      rfl
    · rcases rstripSlash_headq (((urlsplit s).path).map lowerChar) with h3 | h3
      · left
        exact h3
      · right
        show (rstripSlash (((urlsplit s).path).map lowerChar)).head? = some '/'
        rw [h3, List.head?_map, h2]
        rfl
  · intro hs _
    exact schemeSafe_norm (urlsplit_path_safe s hs)
  · exact normPath_fix _

theorem normParts_canon {P : UrlParts} (h : Canon P) : normParts P = P := by
  obtain ⟨s1, n1, p1, q1, f1⟩ := P
  have hfix := h.path_fix
  have hfr := h.frag_nil
  simp only [normParts] at hfix ⊢
  rw [UrlParts.mk.injEq]
  exact ⟨rfl, rfl, hfix, rfl, hfr.symm⟩

/-- `normalize_url` is idempotent on every URL string. -/
theorem normalize_url_idem (u : Str) :
    normalize_url (normalize_url u) = normalize_url u := by
  have hc : Canon (normParts (urlsplit (urldefrag u))) := canon_norm _
  have h1 : urldefrag (normalize_url u) = normalize_url u := by
    unfold urldefrag
    rw [if_neg]
    show ¬ '#' ∈ urlunsplit (normParts (urlsplit (urldefrag u)))
    exact urlunsplit_no_hash hc
  show urlunsplit (normParts (urlsplit (urldefrag (normalize_url u)))) =
    normalize_url u
  rw [h1]
  show urlunsplit (normParts (urlsplit
    (urlunsplit (normParts (urlsplit (urldefrag u)))))) = normalize_url u
  rw [urlsplit_unsplit hc, normParts_canon hc]
  rfl

/-- `WebCrawler.is_valid_url`: scheme must be `http`/`https` and the
URL's path must start with the crawler's base path.  Note the source
checks only scheme and path; `self.base_domain` is stored by
`__init__` but never consulted here. -/
def is_valid_url (base_path url : Str) : Bool :=
  let parsed := urlsplit url
  if parsed.scheme ≠ "http".toList ∧ parsed.scheme ≠ "https".toList then false
  else if ¬ base_path.isPrefixOf parsed.path then false
  else true

/-- The `base_path` computed by `WebCrawler.__init__`: the entry URL's
path, with a trailing `/` appended when missing. -/
def mkBasePath (entry_url : Str) : Str :=
  let p := (urlsplit entry_url).path
  if p.getLast? ≠ some '/' then p ++ ['/'] else p

/-- The `base_domain` computed by `WebCrawler.__init__` (the netloc of
the entry URL). -/
def mkBaseDomain (entry_url : Str) : Str := (urlsplit entry_url).netloc

/-- `urllib.parse.uses_relative`. -/
def uses_relative : List Str :=
  ["", "ftp", "http", "gopher", "nntp", "imap", "wais", "file", "https",
   "shttp", "mms", "prospero", "rtsp", "rtspu", "sftp", "svn", "svn+ssh",
   "ws", "wss"].map String.toList

/-- `urllib.parse.uses_netloc`. -/
def uses_netloc : List Str :=
  ["", "ftp", "http", "gopher", "nntp", "telnet", "imap", "wais", "file",
   "mms", "https", "shttp", "snews", "prospero", "rtsp", "rtspu", "rsync",
   "svn", "svn+ssh", "sftp", "nfs", "git", "git+ssh", "ws", "wss"].map
    String.toList

/-- `segments[1:-1] = filter(None, segments[1:-1])` applied to the tail
of the segment list: drops empty middle segments, keeps the last. -/
def filterInner : List Str → List Str
  | [] => []
  | [x] => [x]
  | x :: xs => if x = [] then filterInner xs else x :: filterInner xs

/-- The `..`/`.` resolution loop of `urljoin`. -/
def resolveSegs (acc : List Str) : List Str → List Str
  | [] => acc
  | seg :: rest =>
    if seg = "..".toList then resolveSegs acc.dropLast rest
    else if seg = ".".toList then resolveSegs acc rest
    else resolveSegs (acc ++ [seg]) rest

/-- `urllib.parse.urljoin` (without the `params` component). -/
def urljoin (base url : Str) : Str :=
  if base = [] then url
  else if url = [] then base
  else
    let B := urlsplit base
    let U := urlsplitD B.scheme url
    if ¬ (U.scheme = B.scheme ∧ U.scheme ∈ uses_relative) then url
    else
      let netloc2 :=
        if U.scheme ∈ uses_netloc then
          if U.netloc ≠ [] then U.netloc else B.netloc
        else U.netloc
      if U.scheme ∈ uses_netloc ∧ U.netloc ≠ [] then urlunsplit U
      else if U.path = [] then
        urlunsplit ⟨U.scheme, netloc2, B.path,
          (if U.query = [] then B.query else U.query), U.fragment⟩
      else
        let base_parts0 := B.path.splitOn '/'
        let base_parts :=
          if base_parts0.getLast? ≠ some [] then base_parts0.dropLast
          else base_parts0
        let segments :=
          if U.path.head? = some '/' then U.path.splitOn '/'
          else
            match base_parts ++ U.path.splitOn '/' with
            | [] => []
            | x :: xs => x :: filterInner xs
        let resolved := resolveSegs [] segments
        let resolved2 :=
          if segments.getLast? = some "..".toList ∨
              segments.getLast? = some ".".toList
          then resolved ++ [[]] else resolved
        let joined := List.intercalate ['/'] resolved2
        urlunsplit ⟨U.scheme, netloc2,
          (if joined = [] then ['/'] else joined), U.query, U.fragment⟩

/-- The schemes `_extract_links` filters out up front. -/
def noCrawlSchemes : List Str :=
  ["javascript:", "mailto:", "tel:"].map String.toList

/-- One anchor's processing inside `WebCrawler._extract_links`:
resolve against the page URL, normalize, drop self-references, keep
only links `is_valid_url` accepts (the kept value is the normalized
URL). -/
def linkOf (base_path cur url href : Str) : Option Str :=
  if noCrawlSchemes.any (fun p => p.isPrefixOf href) then none
  else
    let absolute_url := urljoin url href
    let normalized_url := normalize_url absolute_url
    if normalized_url = cur then none
    else if is_valid_url base_path normalized_url then some normalized_url
    else none

/-- `WebCrawler._extract_links` over the page's anchor hrefs. -/
def extract_links (base_path url : Str) (hrefs : List Str) : List Str :=
  hrefs.filterMap (linkOf base_path (normalize_url url) url)

example : urljoin "https://docs.example.com/guide/".toList "intro".toList =
    "https://docs.example.com/guide/intro".toList := by decide

example : urljoin "https://docs.example.com/guide/".toList
    "https://other.com/x".toList = "https://other.com/x".toList := by decide

example : urljoin "https://x.com/a/b".toList "../c".toList =
    "https://x.com/c".toList := by decide

example :
    extract_links (mkBasePath "https://docs.example.com/guide/".toList)
      "https://docs.example.com/guide/".toList
      ["intro".toList, "https://other.com/x".toList,
       "/guide/".toList, "mailto:a@b.c".toList] =
    ["https://docs.example.com/guide/intro".toList] := by decide

/-- The headless-browser session, as `get_page_content` uses it:
`driver.get(url)` + wait (which may raise `WebDriverException` or
`TimeoutException`, the `.error` case) yielding `driver.page_source`,
and `driver.title` for the loaded URL. -/
structure DriverEnv where
  pageSource : Str → Except Unit Str
  titleOf : Str → Str

/-- The I/O collaborators of `get_page_content`: `trafilatura.fetch_url`
(`none` models a failed download, e.g. an HTTP 500), the markdown text
of `trafilatura.extract` (`[]` models both `None` and an empty string —
Python only ever tests its truthiness), `requests.get(url, timeout=10)`
combined with `raise_for_status` (`.error` models
`requests.RequestException`: network error, timeout, or non-2xx
status), the page title element found by BeautifulSoup, the anchor
hrefs found by BeautifulSoup, the title/body heuristics of
`_extract_content`, and the optional Selenium driver (absent when
`setup_selenium` failed). -/
structure FetchEnv where
  trafFetch : Str → Option Str
  trafExtract : Str → Str
  requestsGet : Str → Except Unit Str
  soupTitle : Str → Option Str
  soupLinks : Str → List Str
  extractTC : Str → Str × Str
  driver : Option DriverEnv

def untitled : Str := "Untitled Page".toList

/-- `WebCrawler._extract_content`: the title/body heuristics are the
environment's `extractTC`; links always come from `_extract_links` on
the page's anchors. -/
def extract_content (env : FetchEnv) (base_path html url : Str) :
    Str × Str × List Str :=
  let tc := env.extractTC html
  (tc.1, tc.2, extract_links base_path url (env.soupLinks html))

/-- `WebCrawler.get_page_content`: the static tier (trafilatura
download + extract, title via `requests.get`, else plain
`requests.get` + `_extract_content`), falling back to the Selenium
tier when a `requests.RequestException` escapes the static tier, and
`(None, None, [])` when the driver is absent or also fails. -/
def get_page_content (env : FetchEnv) (base_path url : Str) :
    Option Str × Option Str × List Str :=
  let staticRes : Except Unit (Option Str × Option Str × List Str) :=
    match env.trafFetch url with
    | some downloaded =>
      let extracted_text := env.trafExtract downloaded
      if extracted_text ≠ [] then
        match env.requestsGet url with
        | .ok body =>
          let title := (env.soupTitle body).getD untitled
          .ok (some title, some extracted_text,
            extract_links base_path url (env.soupLinks body))
        | .error e => .error e
      else
        match env.requestsGet url with
        | .ok body =>
          let r := extract_content env base_path body url
          .ok (some r.1, some r.2.1, r.2.2)
        | .error e => .error e
    | none =>
      match env.requestsGet url with
      | .ok body =>
        let r := extract_content env base_path body url
        .ok (some r.1, some r.2.1, r.2.2)
      | .error e => .error e
  match staticRes with
  | .ok r => r
  | .error _ =>
    match env.driver with
    | none => (none, none, [])
    | some d =>
      match d.pageSource url with
      | .error _ => (none, none, [])
      | .ok src =>
        let extracted_text := env.trafExtract src
        if extracted_text ≠ [] then
          let title := if d.titleOf url ≠ [] then d.titleOf url else untitled
          (some title, some extracted_text,
            extract_links base_path url (env.soupLinks src))
        else
          let r := extract_content env base_path src url
          (some r.1, some r.2.1, r.2.2)

/-- One fetch performed by the crawl loop: the raw URL handed to
`get_page_content`, its normalized form, and the depth it was popped
at. -/
structure FetchEvent where
  url : Str
  nurl : Str
  depth : Nat
deriving DecidableEq, Repr

/-- A record appended to `pages` by `WebCrawler.crawl`. -/
structure PageRec where
  url : Str
  title : Str
  content : Str
deriving DecidableEq, Repr

/-- The loop state of `WebCrawler.crawl`: the `to_visit` FIFO of
`(url, depth)` pairs, `normalized_visited`, the accumulated `pages`,
the trace of fetches performed (for stating invariants), and whether
the Selenium session is still alive. -/
structure CrawlState where
  toVisit : List (Str × Nat)
  visitedNorm : List Str
  pages : List PageRec
  fetched : List FetchEvent
  driverAlive : Bool
deriving DecidableEq, Repr

/-- What the crawl loop sees of `get_page_content`: a
`(title, content, links)` triple, or a propagating per-URL exception
(`.error`). -/
abbrev CrawlEnv := Str → Except Unit (Option Str × Option Str × List Str)

/-- One iteration of the `while to_visit:` loop in `WebCrawler.crawl`
(for a nonempty queue): pop, discard on excessive depth or prior
visit, otherwise mark visited, fetch, and — only under
`if title and content:` — append the page and (when
`depth < max_depth`) enqueue the not-yet-visited links. -/
def crawlStep (maxDepth : Nat) (env : CrawlEnv) :
    CrawlState → Except CrawlState CrawlState
  | ⟨[], vis, pgs, fet, da⟩ => .ok ⟨[], vis, pgs, fet, da⟩
  | ⟨(url, depth) :: rest, vis, pgs, fet, da⟩ =>
    let normalized_url := normalize_url url
    if maxDepth < depth ∨ normalized_url ∈ vis then
      .ok ⟨rest, vis, pgs, fet, da⟩
    else
      let fet2 := fet ++ [⟨url, normalized_url, depth⟩]
      let vis2 := normalized_url :: vis
      match env url with
      | .error _ => .error ⟨rest, vis2, pgs, fet2, da⟩
      | .ok (title, content, links) =>
        match title, content with
        | some (t0 :: ts), some (c0 :: cs) =>
          let newTargets :=
            (links.filter (fun l => decide (normalize_url l ∉ vis2))).map
              (fun l => (l, depth + 1))
          if depth < maxDepth then
            .ok ⟨rest ++ newTargets, vis2,
              pgs ++ [⟨url, t0 :: ts, c0 :: cs⟩], fet2, da⟩
          else
            .ok ⟨rest, vis2, pgs ++ [⟨url, t0 :: ts, c0 :: cs⟩], fet2, da⟩
        | _, _ => .ok ⟨rest, vis2, pgs, fet2, da⟩

/-- The crawl loop, fuel-indexed.  `.error` aborts the loop with the
state at the point of the propagating exception. -/
def crawlLoop (maxDepth : Nat) (env : CrawlEnv) :
    Nat → CrawlState → Except CrawlState CrawlState
  | 0, s => .ok s
  | Nat.succ fuel, s =>
    match s.toVisit with
    | [] => .ok s
    | _ :: _ =>
      match crawlStep maxDepth env s with
      | .error e => .error e
      | .ok s2 => crawlLoop maxDepth env fuel s2

/-- Initial crawl state: `to_visit = [(entry_url, 0)]`, empty visited
set and page list; `driverAlive` records whether `setup_selenium`
produced a driver. -/
def initState (entry_url : Str) (hasDriver : Bool) : CrawlState :=
  ⟨[(entry_url, 0)], [], [], [], hasDriver⟩

/-- `WebCrawler.crawl` up to the final `return`: run the loop;
`.error` is a propagating per-URL exception. -/
def crawlRunE (entry_url : Str) (maxDepth : Nat) (hasDriver : Bool)
    (env : CrawlEnv) (fuel : Nat) : Except CrawlState CrawlState :=
  crawlLoop maxDepth env fuel (initState entry_url hasDriver)

/-- `WebCrawler.crawl` as observed by the caller: on normal loop exit
the driver is quit (`if self.driver: self.driver.quit()`); a
propagating exception leaves the state as it was when it escaped. -/
def crawlRun (entry_url : Str) (maxDepth : Nat) (hasDriver : Bool)
    (env : CrawlEnv) (fuel : Nat) : CrawlState :=
  match crawlRunE entry_url maxDepth hasDriver env fuel with
  | .ok s => { s with driverAlive := false }
  | .error s => s

/-- C1: the claim says a link whose host differs from the entry URL's
host is rejected by the scope check and never becomes a CrawlTarget.
The code contradicts this (and its own docstring "Check if URL should
be crawled based on domain, scheme, and path"): `is_valid_url` tests
only the scheme and the path prefix, and `self.base_domain` is never
consulted.  At the failing input — entry `https://x.com/guide/`, link
`https://evil.com/guide/page` — the hosts differ, yet `is_valid_url`
returns `True` and `_extract_links` keeps the link, so it would be
enqueued. -/
theorem is_valid_url_accepts_foreign_host :
    mkBaseDomain "https://evil.com/guide/page".toList ≠
      mkBaseDomain "https://x.com/guide/".toList ∧
    is_valid_url (mkBasePath "https://x.com/guide/".toList)
      "https://evil.com/guide/page".toList = true ∧
    extract_links (mkBasePath "https://x.com/guide/".toList)
      "https://x.com/guide/".toList ["https://evil.com/guide/page".toList] =
      ["https://evil.com/guide/page".toList] := by
  decide

/-- C5 counterexample: the claim says the path-prefix scope check runs
on the raw path, before normalization, so a link in scope as written
is accepted.  False: `_extract_links` normalizes the link first and
passes the normalized URL to `is_valid_url`.  With entry
`https://x.com/Guide/` (base path `/Guide/`), the link
`https://x.com/Guide/Page` is in scope as written (raw path starts
with `/Guide/`), yet it is rejected, because its normalized path
`/guide/page` no longer starts with `/Guide/`. -/
theorem scope_rejects_link_in_scope_as_written :
    mkBasePath "https://x.com/Guide/".toList = "/Guide/".toList ∧
    "/Guide/".toList.isPrefixOf
      (urlsplit "https://x.com/Guide/Page".toList).path = true ∧
    extract_links (mkBasePath "https://x.com/Guide/".toList)
      "https://x.com/Guide/".toList ["https://x.com/Guide/Page".toList] =
      [] := by
  decide

/-- C5 amended: the prefix check is applied after normalization — every
link `_extract_links` keeps is already in normalized form and passes
`is_valid_url` on that normalized form (so scope is decided on the
normalized path, not the path as written). -/
theorem extract_links_scope_on_normalized (base_path url : Str)
    (hrefs : List Str) :
    ∀ l ∈ extract_links base_path url hrefs,
      l = normalize_url l ∧ is_valid_url base_path l = true := by
  intro l hl
  rcases List.mem_filterMap.mp hl with ⟨href, _, hf⟩
  simp only [linkOf] at hf
  by_cases h1 : noCrawlSchemes.any (fun p => p.isPrefixOf href) = true
  · rw [if_pos h1] at hf
    cases hf
  · rw [if_neg h1] at hf
    by_cases h2 : normalize_url (urljoin url href) = normalize_url url
    · rw [if_pos h2] at hf
      cases hf
    · rw [if_neg h2] at hf
      by_cases h3 :
          is_valid_url base_path (normalize_url (urljoin url href)) = true
      · rw [if_pos h3] at hf
        injection hf with hf
        rw [← hf]
        exact ⟨(normalize_url_idem (urljoin url href)).symm, h3⟩
      · rw [if_neg h3] at hf
        cases hf

/-- Witness for the amended C5 statement at a concrete crawl page. -/
theorem extract_links_scope_on_normalized_witness :
    "https://x.com/guide/page".toList =
      normalize_url "https://x.com/guide/page".toList ∧
    is_valid_url "/guide/".toList "https://x.com/guide/page".toList = true :=
  extract_links_scope_on_normalized "/guide/".toList
    "https://x.com/guide/".toList ["/guide/page".toList]
    "https://x.com/guide/page".toList (by decide)

/-- C8 counterexample: the claim's third identity fails because the
host's case is preserved: `normalize_url` lower-cases only the path,
so `normalize("https://X.com/A") = "https://X.com/a"` differs from
`normalize("https://x.com/a/") = "https://x.com/a"`. -/
theorem normalize_url_host_case_preserved :
    normalize_url "https://x.com/a/".toList = "https://x.com/a".toList ∧
    normalize_url "https://X.com/A".toList = "https://X.com/a".toList ∧
    normalize_url "https://x.com/a/".toList ≠
      normalize_url "https://X.com/A".toList := by
  decide

/-- C8 amended: fragment, trailing-slash and path-case variants do
collapse — `normalize("https://x.com/a/") =
normalize("https://x.com/a#frag") = normalize("https://x.com/A")` —
but the case folding applies to the path only: the host's case is kept
as written, so `normalize("https://X.com/A") = "https://X.com/a"` is a
distinct key. -/
theorem normalize_url_collapses_path_variants :
    normalize_url "https://x.com/a/".toList =
      normalize_url "https://x.com/a#frag".toList ∧
    normalize_url "https://x.com/a/".toList =
      normalize_url "https://x.com/A".toList ∧
    (urlsplit (normalize_url "https://X.com/A".toList)).netloc =
      "X.com".toList ∧
    normalize_url "https://X.com/A".toList = "https://X.com/a".toList := by
  decide

/-- C9: `normalize_url` is idempotent on every URL string:
`normalize(normalize(u)) = normalize(u)`. -/
theorem normalize_url_idempotent (u : Str) :
    normalize_url (normalize_url u) = normalize_url u :=
  normalize_url_idem u

/-- The state a loop outcome carries, whether it returned or aborted on
a propagating exception. -/
def exState : Except CrawlState CrawlState → CrawlState
  | .ok s => s
  | .error s => s

/-- How one loop iteration changes the fetch trace and visited set:
either untouched (empty queue, or a discarded target), or exactly one
new fetch of a previously unvisited normalized URL, recorded in both. -/
theorem crawlStep_track (maxDepth : Nat) (env : CrawlEnv) (s : CrawlState) :
    ((exState (crawlStep maxDepth env s)).fetched = s.fetched ∧
      (exState (crawlStep maxDepth env s)).visitedNorm = s.visitedNorm) ∨
    (∃ u d, (exState (crawlStep maxDepth env s)).fetched =
        s.fetched ++ [⟨u, normalize_url u, d⟩] ∧
      (exState (crawlStep maxDepth env s)).visitedNorm =
        normalize_url u :: s.visitedNorm ∧
      normalize_url u ∉ s.visitedNorm) := by
  obtain ⟨q, vis, pgs, fet, da⟩ := s
  cases q with
  | nil => exact Or.inl ⟨rfl, rfl⟩
  | cons x rest =>
    obtain ⟨url, depth⟩ := x
    by_cases hcond : maxDepth < depth ∨ normalize_url url ∈ vis
    · have hred : crawlStep maxDepth env ⟨(url, depth) :: rest, vis, pgs, fet, da⟩ =
          .ok ⟨rest, vis, pgs, fet, da⟩ := by
        simp only [crawlStep]
        rw [if_pos hcond]
      rw [hred]
      exact Or.inl ⟨rfl, rfl⟩
    · have hnv : normalize_url url ∉ vis := (not_or.mp hcond).2
      refine Or.inr ⟨url, depth, ?_⟩
      have hred : crawlStep maxDepth env ⟨(url, depth) :: rest, vis, pgs, fet, da⟩ =
          (match env url with
          | .error _ => .error ⟨rest, normalize_url url :: vis, pgs,
              fet ++ [⟨url, normalize_url url, depth⟩], da⟩
          | .ok (title, content, links) =>
            match title, content with
            | some (t0 :: ts), some (c0 :: cs) =>
              if depth < maxDepth then
                .ok ⟨rest ++ (links.filter
                    (fun l => decide (normalize_url l ∉ normalize_url url :: vis))).map
                    (fun l => (l, depth + 1)), normalize_url url :: vis,
                  pgs ++ [⟨url, t0 :: ts, c0 :: cs⟩],
                  fet ++ [⟨url, normalize_url url, depth⟩], da⟩
              else
                .ok ⟨rest, normalize_url url :: vis,
                  pgs ++ [⟨url, t0 :: ts, c0 :: cs⟩],
                  fet ++ [⟨url, normalize_url url, depth⟩], da⟩
            | _, _ => .ok ⟨rest, normalize_url url :: vis, pgs,
                fet ++ [⟨url, normalize_url url, depth⟩], da⟩) := by
        simp only [crawlStep]
        rw [if_neg hcond]
      rw [hred]
      cases env url with
      | error e => exact ⟨rfl, rfl, hnv⟩
      | ok trip =>
        obtain ⟨title, content, links⟩ := trip
        rcases title with _ | tl
        · exact ⟨rfl, rfl, hnv⟩
        · rcases content with _ | cl
          · cases tl <;> exact ⟨rfl, rfl, hnv⟩
          · cases tl with
            | nil => cases cl <;> exact ⟨rfl, rfl, hnv⟩
            | cons t0 ts =>
              cases cl with
              | nil => exact ⟨rfl, rfl, hnv⟩
              | cons c0 cs =>
                by_cases hlt : depth < maxDepth
                · simp only [if_pos hlt]
                  exact ⟨rfl, rfl, hnv⟩
                · simp only [if_neg hlt]
                  exact ⟨rfl, rfl, hnv⟩

/-- The at-most-once invariant: fetched normalized URLs are pairwise
distinct and all recorded in the visited set. -/
def CrawlInv (s : CrawlState) : Prop :=
  (s.fetched.map FetchEvent.nurl).Nodup ∧
    ∀ ev ∈ s.fetched, ev.nurl ∈ s.visitedNorm

theorem crawlStep_inv {maxDepth : Nat} {env : CrawlEnv} {s : CrawlState}
    (h : CrawlInv s) : CrawlInv (exState (crawlStep maxDepth env s)) := by
  rcases crawlStep_track maxDepth env s with ⟨h1, h2⟩ | ⟨u, d, h1, h2, h3⟩
  · constructor
    · rw [h1]
      exact h.1
    · intro ev hev
      rw [h1] at hev
      rw [h2]
      exact h.2 ev hev
  · constructor
    · rw [h1, List.map_append, List.map_cons, List.map_nil]
      rw [List.nodup_append]
      refine ⟨h.1, List.nodup_singleton _, ?_⟩
      intro a ha hb
      rw [List.mem_singleton] at hb
      rcases List.mem_map.mp ha with ⟨ev, hev, hevn⟩
      apply h3
      have hne : ev.nurl = normalize_url u := by
        rw [hevn, hb]
      rw [← hne]
      exact h.2 ev hev
    · intro ev hev
      rw [h1] at hev
      rw [h2]
      rcases List.mem_append.mp hev with hev | hev
      · exact List.mem_cons_of_mem _ (h.2 ev hev)
      · rw [List.mem_singleton] at hev
        rw [hev]
        exact List.mem_cons_self _ _

theorem crawlLoop_inv {maxDepth : Nat} {env : CrawlEnv} (fuel : Nat) :
    ∀ s : CrawlState, CrawlInv s →
      CrawlInv (exState (crawlLoop maxDepth env fuel s)) := by
  induction fuel with
  | zero =>
    intro s h
    exact h
  | succ fuel ih =>
    intro s h
    unfold crawlLoop
    split
    · exact h
    · cases hs : crawlStep maxDepth env s with
      | error e =>
        have h2 := @crawlStep_inv maxDepth env s h
        rw [hs] at h2
        exact h2
      | ok s2 =>
        have h2 := @crawlStep_inv maxDepth env s h
        rw [hs] at h2
        exact ih s2 h2

/-- C3: no URL is fetched and extracted more than once in a crawl run,
for every environment (hence every finite link graph, cycles and
duplicate enqueues included): the trace of normalized URLs handed to
`get_page_content` has no duplicates, because the pop-time
visited-set check runs before any fetch. -/
theorem no_url_fetched_twice (entry_url : Str) (maxDepth : Nat)
    (hasDriver : Bool) (env : CrawlEnv) (fuel : Nat) :
    ((crawlRun entry_url maxDepth hasDriver env fuel).fetched.map
      FetchEvent.nurl).Nodup := by
  have h := @crawlLoop_inv maxDepth env fuel
    (initState entry_url hasDriver)
    ⟨List.nodup_nil, fun ev hev => absurd hev (List.not_mem_nil ev)⟩
  unfold crawlRun crawlRunE
  cases hr : crawlLoop maxDepth env fuel (initState entry_url hasDriver) with
  | ok s =>
    rw [hr] at h
    exact h.1
  | error s =>
    rw [hr] at h
    exact h.1

/-- C4: a popped target whose depth exceeds `max_depth` is discarded
with no side effect: the queue loses its head and the visited set,
pages, fetch trace and driver state are untouched. -/
theorem deep_target_discarded (maxDepth : Nat) (env : CrawlEnv) (url : Str)
    (depth : Nat) (rest : List (Str × Nat)) (vis : List Str)
    (pgs : List PageRec) (fet : List FetchEvent) (da : Bool)
    (h : maxDepth < depth) :
    crawlStep maxDepth env ⟨(url, depth) :: rest, vis, pgs, fet, da⟩ =
      .ok ⟨rest, vis, pgs, fet, da⟩ := by
  simp only [crawlStep]
  rw [if_pos (Or.inl h)]

/-- Witness for C4 at a concrete over-deep target. -/
theorem deep_target_discarded_witness :
    crawlStep 1 (fun _ => .ok (none, none, []))
      ⟨[("https://x.com/a".toList, 2)], [], [], [], false⟩ =
      .ok ⟨[], [], [], [], false⟩ :=
  deep_target_discarded 1 _ _ 2 [] [] [] [] false (by decide)

/-- Fixture for the C2 counterexample: the entry page extracts with a
nonempty title but empty content and holds one outbound link; every
other page extracts normally. -/
def envEmptyContent : CrawlEnv := fun u =>
  if u = "https://x.com/a".toList then
    .ok (some "T".toList, some [], ["https://x.com/b".toList])
  else
    .ok (some "T".toList, some "B".toList, [])

/-- C2 counterexample: the claim says outbound links are enqueued for
every processed URL, including one whose extraction yielded empty
content.  False: the enqueue loop sits inside `if title and content:`
in `crawl`, so when the entry page (depth 0 < max_depth 2) returns a
link but empty content, nothing is enqueued — the final state shows
the link never entered the queue and was never fetched. -/
theorem empty_content_drops_links :
    crawlRun "https://x.com/a".toList 2 false envEmptyContent 9 =
      ⟨[], ["https://x.com/a".toList], [],
        [⟨"https://x.com/a".toList, "https://x.com/a".toList, 0⟩], false⟩ := by
  decide

/-- C2 amended: links of a processed URL are enqueued only when the URL
produced a Page.  When extraction yields empty content the iteration
marks the URL visited and moves on with no Page and no enqueue; when
title and content are nonempty and `depth < max_depth`, the unvisited
links are appended to the queue tail at `depth + 1`. -/
theorem enqueue_requires_page (maxDepth : Nat) (env : CrawlEnv) (url : Str)
    (depth : Nat) (rest : List (Str × Nat)) (vis : List Str)
    (pgs : List PageRec) (fet : List FetchEvent) (da : Bool)
    (title content : Option Str) (links : List Str)
    (hd : depth ≤ maxDepth) (hv : normalize_url url ∉ vis)
    (he : env url = .ok (title, content, links)) :
    (content = some [] ∨ content = none →
      crawlStep maxDepth env ⟨(url, depth) :: rest, vis, pgs, fet, da⟩ =
        .ok ⟨rest, normalize_url url :: vis, pgs,
          fet ++ [⟨url, normalize_url url, depth⟩], da⟩) ∧
    (∀ t0 ts c0 cs, title = some (t0 :: ts) → content = some (c0 :: cs) →
      depth < maxDepth →
      crawlStep maxDepth env ⟨(url, depth) :: rest, vis, pgs, fet, da⟩ =
        .ok ⟨rest ++ (links.filter
            (fun l => decide (normalize_url l ∉ normalize_url url :: vis))).map
            (fun l => (l, depth + 1)),
          normalize_url url :: vis,
          pgs ++ [⟨url, t0 :: ts, c0 :: cs⟩],
          fet ++ [⟨url, normalize_url url, depth⟩], da⟩) := by
  have hcond : ¬ (maxDepth < depth ∨ normalize_url url ∈ vis) := by
    rintro (hh | hh)
    · omega
    · exact hv hh
  constructor
  · intro hc
    simp only [crawlStep]
    rw [if_neg hcond, he]
    rcases hc with rfl | rfl
    · rcases title with _ | tl
      · rfl
      · cases tl <;> rfl
    · rcases title with _ | tl
      · rfl
      · cases tl <;> rfl
  · intro t0 ts c0 cs ht hc hlt
    subst ht
    subst hc
    simp only [crawlStep]
    rw [if_neg hcond, he]
    simp only [if_pos hlt]

/-- Witness for the amended C2 statement: the empty-content entry page
is marked visited, yields no Page, and its link is not enqueued. -/
theorem enqueue_requires_page_witness :
    crawlStep 2 envEmptyContent
      ⟨[("https://x.com/a".toList, 0)], [], [], [], false⟩ =
      .ok ⟨[], [normalize_url "https://x.com/a".toList], [],
        [⟨"https://x.com/a".toList, normalize_url "https://x.com/a".toList,
          0⟩], false⟩ :=
  (enqueue_requires_page 2 envEmptyContent "https://x.com/a".toList 0 [] []
      [] [] false (some "T".toList) (some []) ["https://x.com/b".toList]
      (by decide) (by decide) rfl).1 (Or.inl rfl)

theorem crawlStep_fetched_mono (maxDepth : Nat) (env : CrawlEnv)
    (s : CrawlState) :
    ∃ t, (exState (crawlStep maxDepth env s)).fetched = s.fetched ++ t := by
  rcases crawlStep_track maxDepth env s with ⟨h1, _⟩ | ⟨u, d, h1, _, _⟩
  · exact ⟨[], by rw [h1, List.append_nil]⟩
  · exact ⟨_, h1⟩

theorem crawlLoop_fetched_mono (maxDepth : Nat) (env : CrawlEnv)
    (fuel : Nat) :
    ∀ s : CrawlState,
      ∃ t, (exState (crawlLoop maxDepth env fuel s)).fetched =
        s.fetched ++ t := by
  induction fuel with
  | zero =>
    intro s
    refine ⟨[], ?_⟩
    rw [List.append_nil]
    rfl
  | succ fuel ih =>
    intro s
    unfold crawlLoop
    split
    · refine ⟨[], ?_⟩
      rw [List.append_nil]
      rfl
    · cases hs : crawlStep maxDepth env s with
      | error e =>
        obtain ⟨t, ht⟩ := crawlStep_fetched_mono maxDepth env s
        rw [hs] at ht
        exact ⟨t, ht⟩
      | ok s2 =>
        obtain ⟨t1, ht1⟩ := crawlStep_fetched_mono maxDepth env s
        rw [hs] at ht1
        obtain ⟨t2, ht2⟩ := ih s2
        refine ⟨t1 ++ t2, ?_⟩
        rw [ht2]
        show s2.fetched ++ t2 = s.fetched ++ (t1 ++ t2)
        rw [show s2.fetched = s.fetched ++ t1 from ht1, List.append_assoc]

/-- The first loop iteration fetches the entry URL at depth 0,
whatever the environment replies. -/
theorem crawlStep_init_fetched (maxDepth : Nat) (env : CrawlEnv)
    (entry_url : Str) (hasDriver : Bool) :
    (exState (crawlStep maxDepth env (initState entry_url hasDriver))).fetched
      = [⟨entry_url, normalize_url entry_url, 0⟩] := by
  have hcond : ¬ (maxDepth < 0 ∨ normalize_url entry_url ∈ ([] : List Str)) := by
    simp
  simp only [initState, crawlStep]
  rw [if_neg hcond]
  cases env entry_url with
  | error e => rfl
  | ok trip =>
    obtain ⟨title, content, links⟩ := trip
    rcases title with _ | tl
    · rfl
    · rcases content with _ | cl
      · cases tl <;> rfl
      · cases tl with
        | nil => cases cl <;> rfl
        | cons t0 ts =>
          cases cl with
          | nil => rfl
          | cons c0 cs =>
            by_cases hlt : (0 : Nat) < maxDepth
            · simp only [if_pos hlt]
              rfl
            · simp only [if_neg hlt]
              rfl

/-- C10: the entry URL is never checked against the scope rule: even
when `is_valid_url` rejects the entry URL, the crawl pops it at depth
0 and hands it to `get_page_content` as its first fetch — scope
filtering applies only to links discovered on fetched pages. -/
theorem entry_fetched_ignoring_scope (entry_url : Str) (maxDepth : Nat)
    (hasDriver : Bool) (env : CrawlEnv) (fuel : Nat)
    (_hscope : is_valid_url (mkBasePath entry_url) entry_url = false)
    (hf : 1 ≤ fuel) :
    (crawlRun entry_url maxDepth hasDriver env fuel).fetched.head? =
      some ⟨entry_url, normalize_url entry_url, 0⟩ := by
  obtain ⟨fuel2, rfl⟩ : ∃ f2, fuel = f2 + 1 := ⟨fuel - 1, by omega⟩
  have hunroll : crawlLoop maxDepth env (fuel2 + 1)
      (initState entry_url hasDriver) =
      match crawlStep maxDepth env (initState entry_url hasDriver) with
      | .error e => .error e
      | .ok s2 => crawlLoop maxDepth env fuel2 s2 := rfl
  unfold crawlRun crawlRunE
  rw [hunroll]
  have h1 := crawlStep_init_fetched maxDepth env entry_url hasDriver
  cases hs : crawlStep maxDepth env (initState entry_url hasDriver) with
  | error e =>
    have h1b : e.fetched = [⟨entry_url, normalize_url entry_url, 0⟩] := by
      rw [hs] at h1
      exact h1
    show e.fetched.head? = some ⟨entry_url, normalize_url entry_url, 0⟩
    rw [h1b]
    rfl
  | ok s2 =>
    have h1b : s2.fetched = [⟨entry_url, normalize_url entry_url, 0⟩] := by
      rw [hs] at h1
      exact h1
    obtain ⟨t, ht⟩ := crawlLoop_fetched_mono maxDepth env fuel2 s2
    show (match crawlLoop maxDepth env fuel2 s2 with
      | .ok s => { s with driverAlive := false }
      | .error s => s).fetched.head? =
        some ⟨entry_url, normalize_url entry_url, 0⟩
    cases hr : crawlLoop maxDepth env fuel2 s2 with
    | ok s3 =>
      have htb : s3.fetched = s2.fetched ++ t := by
        rw [hr] at ht
        exact ht
      show s3.fetched.head? = some ⟨entry_url, normalize_url entry_url, 0⟩
      rw [htb, h1b]
      rfl
    | error s3 =>
      have htb : s3.fetched = s2.fetched ++ t := by
        rw [hr] at ht
        exact ht
      show s3.fetched.head? = some ⟨entry_url, normalize_url entry_url, 0⟩
      rw [htb, h1b]
      rfl

/-- Witness for C10: an entry URL whose path is outside its own base
path (the crawler appends `/` to the empty entry path) is fetched
anyway. -/
theorem entry_fetched_ignoring_scope_witness :
    (crawlRun "https://x.com".toList 0 false
        (fun _ => .ok (none, none, [])) 1).fetched.head? =
      some ⟨"https://x.com".toList, normalize_url "https://x.com".toList,
        0⟩ :=
  entry_fetched_ignoring_scope "https://x.com".toList 0 false
    (fun _ => .ok (none, none, [])) 1 (by decide) (by decide)

/-- Fixture for the C7 counterexample: every fetch raises a propagating
exception (one not caught inside `get_page_content`). -/
def envRaises : CrawlEnv := fun _ => .error ()

def isOkE : Except CrawlState CrawlState → Bool
  | .ok _ => true
  | .error _ => false

/-- C7 counterexample: the claim says the renderer session is torn
down however the crawl terminates, a propagating per-URL exception
included.  False: `self.driver.quit()` stands after the loop with no
`try`/`finally`, so a run that ends in a propagating exception leaves
`crawl` with the driver still alive. -/
theorem exception_skips_driver_teardown :
    isOkE (crawlRunE "https://x.com/a".toList 1 true envRaises 3) = false ∧
    (crawlRun "https://x.com/a".toList 1 true envRaises 3).driverAlive
      = true := by
  decide

/-- C7 amended: the teardown is unconditional only across normal loop
exits — whenever the crawl loop runs to completion (returns rather
than raising), the driver is quit before `crawl` returns; a
propagating per-URL exception skips the teardown. -/
theorem driver_quit_on_normal_return (entry_url : Str) (maxDepth : Nat)
    (hasDriver : Bool) (env : CrawlEnv) (fuel : Nat) (s : CrawlState)
    (h : crawlRunE entry_url maxDepth hasDriver env fuel = .ok s) :
    (crawlRun entry_url maxDepth hasDriver env fuel).driverAlive = false := by
  unfold crawlRun
  rw [h]

/-- Witness for the amended C7 statement: a one-page crawl that ends
normally has quit its driver. -/
theorem driver_quit_on_normal_return_witness :
    (crawlRun "https://x.com/a".toList 0 true
        (fun _ => .ok (none, none, [])) 2).driverAlive = false :=
  driver_quit_on_normal_return "https://x.com/a".toList 0 true
    (fun _ => .ok (none, none, [])) 2
    ⟨[], ["https://x.com/a".toList], [],
      [⟨"https://x.com/a".toList, "https://x.com/a".toList, 0⟩], true⟩
    rfl

theorem crawlLoop_empty (maxDepth : Nat) (env : CrawlEnv) (fuel : Nat)
    (s : CrawlState) (h : s.toVisit = []) :
    crawlLoop maxDepth env fuel s = .ok s := by
  cases fuel with
  | zero => rfl
  | succ fuel =>
    unfold crawlLoop
    rw [h]

/-- C6: the fetch pipeline tries the static tier first and, when the
static fetch raises (network error, timeout, non-2xx such as HTTP
500, so that `trafilatura.fetch_url` yields nothing and
`requests.get` raises), falls through to the renderer; when the
renderer succeeds with nonempty extracted text, `get_page_content`
returns that single result, and a crawl of that URL produces exactly
one Page — the fallback is neither skipped nor double-counted. -/
theorem static_failure_uses_renderer (fenv : FetchEnv) (base_path url : Str)
    (d : DriverEnv) (src : Str)
    (h1 : fenv.trafFetch url = none)
    (h2 : fenv.requestsGet url = .error ())
    (h3 : fenv.driver = some d)
    (h4 : d.pageSource url = .ok src)
    (h5 : fenv.trafExtract src ≠ [])
    (fuel : Nat) (hf : 1 ≤ fuel) :
    get_page_content fenv base_path url =
      (some (if d.titleOf url ≠ [] then d.titleOf url else untitled),
       some (fenv.trafExtract src),
       extract_links base_path url (fenv.soupLinks src)) ∧
    (crawlRun url 0 true
        (fun u => .ok (get_page_content fenv base_path u)) fuel).pages =
      [⟨url, (if d.titleOf url ≠ [] then d.titleOf url else untitled),
        fenv.trafExtract src⟩] := by
  have hgpc : get_page_content fenv base_path url =
      (some (if d.titleOf url ≠ [] then d.titleOf url else untitled),
       some (fenv.trafExtract src),
       extract_links base_path url (fenv.soupLinks src)) := by
    simp only [get_page_content, h1, h2, h3, h4]
    rw [if_pos h5]
  refine ⟨hgpc, ?_⟩
  obtain ⟨fuel2, rfl⟩ : ∃ f2, fuel = f2 + 1 := ⟨fuel - 1, by omega⟩
  obtain ⟨t0, ts, hti⟩ : ∃ t0 ts,
      (if d.titleOf url ≠ [] then d.titleOf url else untitled) = t0 :: ts := by
    by_cases hd2 : d.titleOf url ≠ []
    · rw [if_pos hd2]
      exact List.exists_cons_of_ne_nil hd2
    · rw [if_neg hd2]
      exact ⟨'U', "ntitled Page".toList, rfl⟩
  obtain ⟨c0, cs, hci⟩ := List.exists_cons_of_ne_nil h5
  have hcond : ¬ ((0 : Nat) < 0 ∨ normalize_url url ∈ ([] : List Str)) := by
    simp
  have hstep : crawlStep 0 (fun u => .ok (get_page_content fenv base_path u))
      (initState url true) =
      .ok ⟨[], [normalize_url url], [⟨url, t0 :: ts, c0 :: cs⟩],
        [⟨url, normalize_url url, 0⟩], true⟩ := by
    simp only [initState, crawlStep, if_neg hcond, hgpc, hti, hci,
      if_neg (show ¬ (0 : Nat) < 0 from by omega), List.nil_append]
  have hunroll : crawlLoop 0 (fun u => .ok (get_page_content fenv base_path u))
      (fuel2 + 1) (initState url true) =
      match crawlStep 0 (fun u => .ok (get_page_content fenv base_path u))
        (initState url true) with
      | .error e => .error e
      | .ok s2 => crawlLoop 0 (fun u => .ok (get_page_content fenv base_path u))
          fuel2 s2 := rfl
  unfold crawlRun crawlRunE
  rw [hunroll, hstep]
  show (match crawlLoop 0 (fun u => .ok (get_page_content fenv base_path u))
      fuel2 ⟨[], [normalize_url url], [⟨url, t0 :: ts, c0 :: cs⟩],
        [⟨url, normalize_url url, 0⟩], true⟩ with
    | .ok s => { s with driverAlive := false }
    | .error s => s).pages =
      [⟨url, (if d.titleOf url ≠ [] then d.titleOf url else untitled),
        fenv.trafExtract src⟩]
  rw [crawlLoop_empty _ _ _ _ rfl]
  show [(⟨url, t0 :: ts, c0 :: cs⟩ : PageRec)] =
    [⟨url, (if d.titleOf url ≠ [] then d.titleOf url else untitled),
      fenv.trafExtract src⟩]
  rw [hti, hci]

/-- Concrete environment for the C6 witness: the static download
yields nothing, the HTTP GET raises, the renderer returns a page whose
extraction succeeds. -/
def fenvRendered : FetchEnv where
  trafFetch := fun _ => none
  trafExtract := fun s => s
  requestsGet := fun _ => .error ()
  soupTitle := fun _ => none
  soupLinks := fun _ => []
  extractTC := fun _ => ([], [])
  driver := some ⟨fun _ => .ok "BODY".toList, fun _ => "T".toList⟩

/-- Witness for C6: with the static tier failing with HTTP 500 and the
renderer succeeding, the URL yields one result and one Page. -/
theorem static_failure_uses_renderer_witness :
    get_page_content fenvRendered "/".toList "https://x.com/a".toList =
      (some "T".toList, some "BODY".toList, []) ∧
    (crawlRun "https://x.com/a".toList 0 true
        (fun u => .ok (get_page_content fenvRendered "/".toList u)) 1).pages =
      [⟨"https://x.com/a".toList, "T".toList, "BODY".toList⟩] :=
  static_failure_uses_renderer fenvRendered "/".toList
    "https://x.com/a".toList
    ⟨fun _ => .ok "BODY".toList, fun _ => "T".toList⟩ "BODY".toList
    rfl rfl rfl rfl (by decide) 1 (by decide)
